import Mathlib

/-!
Verification of the playlist-organiser core: the Camelot key model
(`camelot_utilities.py`), the harmonic mix classifier (`camelot_rules.py`),
the two transition scorers and greedy path builders
(`camelot_mixer_bpm_first.py`, `camelot_mixer_harmonics_first.py`).

Python floats are embedded as exact rationals (ℚ); a Python exception
escaping a function is embedded as `none` in an `Option` result; a Python
`None` value held in a record field is an `Option` field.
-/

/-! ## KeyModel (camelot_utilities.py) -/

/-- Model of Python `int(s)` on the digit prefix of a key: an optional sign
followed by one or more decimal digits; anything else raises `ValueError`,
embedded as `none`. -/
def digitsToNat? (cs : List Char) : Option Nat :=
  if cs = [] then none
  else if cs.all (fun c => c.isDigit) then
    some (cs.foldl (fun n c => n * 10 + (c.toNat - 48)) 0)
  else none

def parseInt? (s : String) : Option Int :=
  match s.toList with
  | '-' :: rest => (digitsToNat? rest).map (fun n => -(n : Int))
  | '+' :: rest => (digitsToNat? rest).map (fun n => (n : Int))
  | cs => (digitsToNat? cs).map (fun n => (n : Int))

/-- Embeds `parse_camelot` from `camelot_utilities.py`:
`num = int(key[:-1]); letter = key[-1].upper(); return num, letter`.
No validation of the letter and no range check on the number is performed;
`none` is a raised `ValueError`/`IndexError`. -/
def parse_camelot (key : String) : Option (Int × Char) :=
  match parseInt? (String.mk key.toList.dropLast) with
  | none => none
  | some num =>
    match key.toList.getLast? with
    | none => none
    | some c => some (num, c.toUpper)

/-- Embeds `camelot_increment` from `camelot_utilities.py`:
`((num - 1 + step) % 12) + 1`.  Python `%` with positive modulus agrees
with Lean's `Int.emod`. -/
def camelot_increment (num step : Int) : Int :=
  ((num - 1 + step) % 12) + 1

/-! ## MixClassifier (camelot_rules.py) -/

/-- Embeds `is_perfect_mix`: `k1 == k2` (string identity, no decoding). -/
def is_perfect_mix (k1 k2 : String) : Bool :=
  k1 == k2

/-- Embeds `is_plus1_mix`; `none` is a decoding exception propagating. -/
def is_plus1_mix (k1 k2 : String) : Option Bool :=
  match parse_camelot k1, parse_camelot k2 with
  | some (n1, l1), some (n2, l2) =>
      some (decide (l1 = l2) && decide (n2 = camelot_increment n1 1))
  | _, _ => none

/-- Embeds `is_minus1_mix`. -/
def is_minus1_mix (k1 k2 : String) : Option Bool :=
  match parse_camelot k1, parse_camelot k2 with
  | some (n1, l1), some (n2, l2) =>
      some (decide (l1 = l2) && decide (n2 = camelot_increment n1 (-1)))
  | _, _ => none

/-- Embeds `is_energy_boost`. -/
def is_energy_boost (k1 k2 : String) : Option Bool :=
  match parse_camelot k1, parse_camelot k2 with
  | some (n1, l1), some (n2, l2) =>
      some (decide (l1 = l2) && decide (n2 = camelot_increment n1 2))
  | _, _ => none

/-- Embeds `is_scale_change`: same number, different letter. -/
def is_scale_change (k1 k2 : String) : Option Bool :=
  match parse_camelot k1, parse_camelot k2 with
  | some (n1, l1), some (n2, l2) =>
      some (decide (n1 = n2) && decide (l1 ≠ l2))
  | _, _ => none

/-- Embeds `is_diagonal_mix`: changed scale and one step anticlockwise. -/
def is_diagonal_mix (k1 k2 : String) : Option Bool :=
  match parse_camelot k1, parse_camelot k2 with
  | some (n1, l1), some (n2, l2) =>
      some (decide (l1 ≠ l2) && decide (n2 = camelot_increment n1 (-1)))
  | _, _ => none

/-- Embeds `is_mood_shifter`: three steps clockwise and changed scale. -/
def is_mood_shifter (k1 k2 : String) : Option Bool :=
  match parse_camelot k1, parse_camelot k2 with
  | some (n1, l1), some (n2, l2) =>
      some (decide (n2 = camelot_increment n1 3) && decide (l1 ≠ l2))
  | _, _ => none

/-- Embeds `is_jaws_mix`: five steps anticlockwise, same scale. -/
def is_jaws_mix (k1 k2 : String) : Option Bool :=
  match parse_camelot k1, parse_camelot k2 with
  | some (n1, l1), some (n2, l2) =>
      some (decide (n2 = camelot_increment n1 (-5)) && decide (l1 = l2))
  | _, _ => none

/-- Embeds `classify_mix_type` from `camelot_rules.py`: the input keys are
Python values that may be `None`; the result is `none` exactly when a
decoding exception escapes (which the identity check can pre-empt). -/
def classify_mix_type (k1 k2 : Option String) : Option String :=
  match k1, k2 with
  | none, _ => some "unknown"
  | _, none => some "unknown"
  | some a, some b =>
    if is_perfect_mix a b then some "perfect mix"
    else match is_plus1_mix a b with
    | none => none
    | some p1 =>
    if p1 then some "+1 mix"
    else match is_minus1_mix a b with
    | none => none
    | some m1 =>
    if m1 then some "-1 mix"
    else match is_energy_boost a b with
    | none => none
    | some eb =>
    if eb then some "energy boost"
    else match is_scale_change a b with
    | none => none
    | some sch =>
    if sch then some "scale change"
    else match is_diagonal_mix a b with
    | none => none
    | some dm =>
    if dm then some "diagonal mix"
    else match is_mood_shifter a b with
    | none => none
    | some ms =>
    if ms then some "mood shifter"
    else match is_jaws_mix a b with
    | none => none
    | some jm =>
    if jm then some "jaws mix"
    else some "non-harmonic"

/-! ## Spec-side definitions (for refinement comparison only) -/

/-- Spec-side decoder, following §4.1 of the spec's words: split a trailing
letter (case-insensitive) from leading digits, parse the digits as an
integer; fail if the string has no trailing letter, the remainder is not a
positive integer, or the decoded position is outside [1,12]. -/
def decode_spec (key : String) : Option (Int × Char) :=
  match key.toList.getLast? with
  | none => none
  | some c =>
    if c.isAlpha then
      match parseInt? (String.mk key.toList.dropLast) with
      | some n => if 1 ≤ n ∧ n ≤ 12 then some (n, c.toUpper) else none
      | none => none
    else none

/-- Spec-side classifier, following §4.2 of the spec's words: decode both
keys, then evaluate the ten categories in the stated priority order, the
first match winning. -/
def classify_spec (k1 k2 : Option String) : Option String :=
  match k1, k2 with
  | none, _ => some "unknown"
  | _, none => some "unknown"
  | some a, some b =>
    match decode_spec a, decode_spec b with
    | some (n1, l1), some (n2, l2) =>
      if a = b then some "perfect mix"
      else if l1 = l2 ∧ n2 = camelot_increment n1 1 then some "+1 mix"
      else if l1 = l2 ∧ n2 = camelot_increment n1 (-1) then some "-1 mix"
      else if l1 = l2 ∧ n2 = camelot_increment n1 2 then some "energy boost"
      else if n1 = n2 ∧ l1 ≠ l2 then some "scale change"
      else if l1 ≠ l2 ∧ n2 = camelot_increment n1 (-1) then some "diagonal mix"
      else if l1 ≠ l2 ∧ n2 = camelot_increment n1 3 then some "mood shifter"
      else if l1 = l2 ∧ n2 = camelot_increment n1 (-5) then some "jaws mix"
      else some "non-harmonic"
    | _, _ => none

example : classify_mix_type (some "8A") (some "9A") = some "+1 mix" := by decide
example : classify_mix_type (some "1A") (some "8A") = some "jaws mix" := by decide
example : parse_camelot "13A" = some (13, 'A') := by decide
example : decode_spec "13A" = none := by decide
example : ((-5 : Int) % 12) = 7 := by decide

/-! ## Track records and scoring (both mixer modules) -/

/-- A track record as the mixers read it: `s.get("song")`, `s.get("artist")`,
`s.get("bpm")`, `s.get("key")`, each possibly `None`.  BPM numbers are
embedded as exact rationals. -/
structure Song where
  song : Option String
  artist : Option String
  bpm : Option ℚ
  key : Option String
deriving DecidableEq

/-- Python truthiness of `s.get("key")` as used by the harmonic-first start
selection: `None` and the empty string are falsy. -/
def Song.hasKey (s : Song) : Bool :=
  match s.key with
  | none => false
  | some k => decide (k ≠ "")

/-- The `MIX_SCORES` table, identical in both mixer modules; the final
catch-all models `MIX_SCORES.get(mix_type, 0.0)`. -/
def MIX_SCORES (mt : String) : ℚ :=
  if mt = "perfect mix" then 5
  else if mt = "+1 mix" then 4
  else if mt = "-1 mix" then 4
  else if mt = "energy boost" then 3
  else if mt = "scale change" then 3
  else if mt = "diagonal mix" then 2
  else if mt = "mood shifter" then 2
  else if mt = "jaws mix" then 1
  else if mt = "non-harmonic" then 0
  else if mt = "unknown" then 0
  else 0

/-- Embeds `transition_score` of `camelot_mixer_bpm_first.py` (the module's
default weight is 0.40 = 2/5).  `none` is a decoding exception escaping
from `classify_mix_type`. -/
def transition_score_bpm (weight_bpm : ℚ) (song_a song_b : Song) :
    Option (ℚ × String) :=
  match classify_mix_type song_a.key song_b.key with
  | none => none
  | some mix_type =>
    let harmonic := MIX_SCORES mix_type
    let bpm_score : ℚ :=
      match song_a.bpm, song_b.bpm with
      | some ba, some bb => max 0 (10 - |bb - ba|)
      | _, _ => 0
    some (bpm_score * weight_bpm + harmonic * (1 - weight_bpm), mix_type)

/-- Embeds `transition_score` of `camelot_mixer_harmonics_first.py` (the
module's default weight is 0.15 = 3/20). -/
def transition_score_harmonic (weight_bpm : ℚ) (song_a song_b : Song) :
    Option (ℚ × String) :=
  match classify_mix_type song_a.key song_b.key with
  | none => none
  | some mix_type =>
    let base := MIX_SCORES mix_type * 10
    let bpm_penalty : ℚ :=
      match song_a.bpm, song_b.bpm with
      | some ba, some bb => |bb - ba| * weight_bpm
      | _, _ => 0
    some (base - bpm_penalty, mix_type)

/-- The score the BPM-first greedy selection compares (default weight). -/
def sc_bpm (a b : Song) : Option ℚ :=
  (transition_score_bpm (2/5) a b).map (fun r => r.1)

/-- The score the harmonic-first greedy selection compares (default weight). -/
def sc_harm (a b : Song) : Option ℚ :=
  (transition_score_harmonic (3/20) a b).map (fun r => r.1)

/-! ## Sorting by BPM

Both builders run `sorted(songs, key=lambda s: inf if s.get("bpm") is None
else s["bpm"])`: a stable ascending sort where an absent BPM sorts last.
Python's stable sort is embedded as a stable insertion sort over the
comparison `bpmKeyLE` of the sort keys. -/

/-- `bpmKeyLE a b` holds when `a`'s sort key (BPM, or +∞ when absent) is at
most `b`'s. -/
def bpmKeyLE (a b : Song) : Bool :=
  match a.bpm, b.bpm with
  | none, none => true
  | none, some _ => false
  | some _, none => true
  | some x, some y => decide (x ≤ y)

/-- Stable insertion of `x` before the first element not below it. -/
def insertSong (x : Song) : List Song → List Song
  | [] => [x]
  | y :: ys => if bpmKeyLE x y then x :: y :: ys else y :: insertSong x ys

/-- Stable ascending sort by BPM (absent BPM last), embedding the Python
`sorted(...)` call of both builders. -/
def sortByBpm : List Song → List Song
  | [] => []
  | x :: xs => insertSong x (sortByBpm xs)

/-! ## The greedy selection step

Both builders run the same inner loop: scan `remaining` in its current
order, keep the candidate whose score is strictly greater than the best so
far (so the first candidate encountered wins ties, the initial best being
`-inf`), then remove the winner from `remaining`. -/

/-- One greedy scan over the non-empty pool `x :: xs`: returns the winning
candidate, its score, and the pool with the winner removed (order
preserved); `none` when scoring raises on some candidate. -/
def pick_best (sc : Song → Option ℚ) (x : Song) : List Song → Option (Song × ℚ × List Song)
  | [] =>
    match sc x with
    | none => none
    | some cx => some (x, cx, [])
  | y :: ys =>
    match sc x with
    | none => none
    | some cx =>
      match pick_best sc y ys with
      | none => none
      | some (b, cb, rest) =>
        if cb > cx then some (b, cb, x :: rest) else some (x, cx, y :: ys)

/-- Structural engine of the shared `while remaining:` loop: the first list
is a fuel list whose length bounds the number of iterations (the loop runs
exactly `rem.length` times, so callers pass `rem` itself).  Each step
appends the `pick_best` winner and recurses from it. -/
def greedy_go (sc : Song → Song → Option ℚ) : List Song → Song → List Song → Option (List Song)
  | _, _, [] => some []
  | [], _, _ :: _ => none
  | _ :: fuel, curr, x :: xs =>
    match pick_best (sc curr) x xs with
    | none => none
    | some (b, _, rest) =>
      match greedy_go sc fuel b rest with
      | none => none
      | some tail => some (b :: tail)

/-- The shared `while remaining:` loop of both builders: repeatedly append
the `pick_best` winner and recurse from it (the pool shrinks by one per
iteration, so `rem` itself is adequate fuel). -/
def greedy_path (sc : Song → Song → Option ℚ) (curr : Song) (rem : List Song) :
    Option (List Song) :=
  greedy_go sc rem curr rem

/-! ## Path builders -/

/-- Embeds `build_bpm_first_path`: sort by BPM, start from the very first
sorted record, then greedily extend with `transition_score` (weight 0.40).
`none` is a decoding exception escaping the loop. -/
def build_bpm_first_path (songs : List Song) : Option (List Song) :=
  match sortByBpm songs with
  | [] => some []
  | s0 :: rest =>
    match greedy_path sc_bpm s0 rest with
    | none => none
    | some tail => some (s0 :: tail)

/-- The start-selection scan of `build_harmonic_path`: the first record with
a truthy key, together with the pool with that record removed (order
preserved); `none` when no record has a truthy key. -/
def find_start : List Song → Option (Song × List Song)
  | [] => none
  | s :: rest =>
    if s.hasKey then some (s, rest)
    else
      match find_start rest with
      | none => none
      | some (st, rem) => some (st, s :: rem)

/-- Embeds `build_harmonic_path`: sort by BPM, start from the first sorted
record with a truthy key (falling back to the sorted list when none has
one), then greedily extend with `transition_score` (weight 0.15). -/
def build_harmonic_path (songs : List Song) : Option (List Song) :=
  match sortByBpm songs with
  | [] => some []
  | s0 :: rest =>
    match find_start (s0 :: rest) with
    | none => some (s0 :: rest)
    | some (st, rem) =>
      match greedy_path sc_harm st rem with
      | none => none
      | some tail => some (st :: tail)

/-- Precondition of §4.4: a record with a non-null BPM and a non-null,
decodable key (decodable in the spec's sense). -/
def goodSong (s : Song) : Bool :=
  s.bpm.isSome &&
    match s.key with
    | none => false
    | some k => (decode_spec k).isSome

/-- Spec-side BPM-closeness term of §4.3 (0 when either BPM is absent). -/
def spec_bpmScore (ba bb : Option ℚ) : ℚ :=
  match ba, bb with
  | some x, some y => max 0 (10 - |y - x|)
  | _, _ => 0

/-- Spec-side BPM penalty of §4.3 (0 when either BPM is absent). -/
def spec_bpmPenalty (ba bb : Option ℚ) : ℚ :=
  match ba, bb with
  | some x, some y => |y - x| * (15/100)
  | _, _ => 0


/-! ## Witness inputs -/

def w5A : Song := ⟨none, none, some 120, some "8A"⟩

def w5B : Song := ⟨none, none, some 120, some "9A"⟩

def w6A : Song := ⟨none, none, some 120, some "8A"⟩

def w6B : Song := ⟨none, none, some 124, some "8A"⟩

def cx7A : Song := ⟨none, none, some 100, some "8A"⟩

def cx7B1 : Song := ⟨none, none, some 111, some "8A"⟩

def cx7B2 : Song := ⟨none, none, some 112, some "8A"⟩

def w7A : Song := ⟨none, none, some 100, some "8A"⟩

def w7B1 : Song := ⟨none, none, some 104, some "8A"⟩

def w7B2 : Song := ⟨none, none, some 106, some "8A"⟩

def w1Songs : List Song :=
  [⟨some "b", none, some 130, some "9A"⟩,
   ⟨some "a", none, some 128, some "8A"⟩,
   ⟨some "c", none, some 126, some "8B"⟩]

def w4Songs : List Song :=
  [⟨some "b", none, some 130, some "9A"⟩,
   ⟨some "a", none, some 128, some "8A"⟩,
   ⟨some "c", none, some 126, some "8B"⟩]

def w4x : Song := ⟨none, none, some 1, none⟩

def w4y : Song := ⟨none, none, some 2, none⟩

def w9Songs : List Song := [⟨some "n", none, some 120, none⟩]

/-! ## Helper lemmas: decoding and classification -/

theorem decode_to_parse {k : String} {p : Int × Char}
    (h : decode_spec k = some p) : parse_camelot k = some p := by
  unfold decode_spec at h
  unfold parse_camelot
  split at h
  · simp at h
  · rename_i c hg
    split at h
    · split at h
      · rename_i n hp
        split at h
        · cases h
          rw [hp]
        · simp at h
      · simp at h
    · simp at h

theorem decode_spec_ne_empty {k : String} {p : Int × Char}
    (h : decode_spec k = some p) : k ≠ "" := by
  intro hk
  subst hk
  simp [decode_spec] at h

/-- Under successful decoding of both keys, `classify_mix_type` is the
priority chain of §4.2 in closed form. -/
theorem classify_eq_chain {a b : String} {n1 n2 : Int} {l1 l2 : Char}
    (ha : parse_camelot a = some (n1, l1)) (hb : parse_camelot b = some (n2, l2)) :
    classify_mix_type (some a) (some b) =
      (if a = b then some "perfect mix"
        else if l1 = l2 ∧ n2 = camelot_increment n1 1 then some "+1 mix"
        else if l1 = l2 ∧ n2 = camelot_increment n1 (-1) then some "-1 mix"
        else if l1 = l2 ∧ n2 = camelot_increment n1 2 then some "energy boost"
        else if n1 = n2 ∧ l1 ≠ l2 then some "scale change"
        else if l1 ≠ l2 ∧ n2 = camelot_increment n1 (-1) then some "diagonal mix"
        else if n2 = camelot_increment n1 3 ∧ l1 ≠ l2 then some "mood shifter"
        else if n2 = camelot_increment n1 (-5) ∧ l1 = l2 then some "jaws mix"
        else some "non-harmonic") := by
  simp only [classify_mix_type, is_perfect_mix, is_plus1_mix, is_minus1_mix,
    is_energy_boost, is_scale_change, is_diagonal_mix, is_mood_shifter,
    is_jaws_mix, ha, hb, Bool.and_eq_true, decide_eq_true_eq, beq_iff_eq]

theorem classify_total {a b : String} {p q : Int × Char}
    (ha : parse_camelot a = some p) (hb : parse_camelot b = some q) :
    (classify_mix_type (some a) (some b)).isSome := by
  obtain ⟨n1, l1⟩ := p
  obtain ⟨n2, l2⟩ := q
  rw [classify_eq_chain ha hb]
  split
  · rfl
  all_goals (split
             <;> first
               | rfl
               | (split <;> first
                   | rfl
                   | (split <;> first
                       | rfl
                       | (split <;> first
                           | rfl
                           | (split <;> first
                               | rfl
                               | (split <;> first
                                   | rfl
                                   | (split <;> rfl)))))))

theorem classify_good_isSome {a b : Song}
    (ha : goodSong a = true) (hb : goodSong b = true) :
    (classify_mix_type a.key b.key).isSome := by
  unfold goodSong at ha hb
  rw [Bool.and_eq_true] at ha hb
  cases hka : a.key with
  | none => rw [hka] at ha; simp at ha
  | some ka =>
    cases hkb : b.key with
    | none => rw [hkb] at hb; simp at hb
    | some kb =>
      rw [hka] at ha
      rw [hkb] at hb
      obtain ⟨pa, hpa⟩ := Option.isSome_iff_exists.mp ha.2
      obtain ⟨pb, hpb⟩ := Option.isSome_iff_exists.mp hb.2
      exact classify_total (decode_to_parse hpa) (decode_to_parse hpb)

theorem sc_bpm_isSome {a b : Song}
    (ha : goodSong a = true) (hb : goodSong b = true) :
    (sc_bpm a b).isSome := by
  have h := classify_good_isSome ha hb
  obtain ⟨mt, hmt⟩ := Option.isSome_iff_exists.mp h
  simp [sc_bpm, transition_score_bpm, hmt]

theorem sc_harm_isSome {a b : Song}
    (ha : goodSong a = true) (hb : goodSong b = true) :
    (sc_harm a b).isSome := by
  have h := classify_good_isSome ha hb
  obtain ⟨mt, hmt⟩ := Option.isSome_iff_exists.mp h
  simp [sc_harm, transition_score_harmonic, hmt]

theorem goodSong_hasKey {s : Song} (h : goodSong s = true) :
    s.hasKey = true := by
  unfold goodSong at h
  rw [Bool.and_eq_true] at h
  unfold Song.hasKey
  cases hk : s.key with
  | none => rw [hk] at h; simp at h
  | some k =>
    rw [hk] at h
    obtain ⟨p, hp⟩ := Option.isSome_iff_exists.mp h.2
    simp [decode_spec_ne_empty hp]

/-! ## Helper lemmas: sorting -/

theorem bpmKeyLE_refl (a : Song) : bpmKeyLE a a = true := by
  unfold bpmKeyLE
  cases a.bpm <;> simp

theorem bpmKeyLE_total {a b : Song} (h : bpmKeyLE a b = false) :
    bpmKeyLE b a = true := by
  unfold bpmKeyLE at h ⊢
  cases ha : a.bpm <;> cases hb : b.bpm <;> rw [ha, hb] at h <;> simp_all
  exact le_of_not_le (by simpa using h)

theorem bpmKeyLE_trans {a b c : Song} (hab : bpmKeyLE a b = true)
    (hbc : bpmKeyLE b c = true) : bpmKeyLE a c = true := by
  unfold bpmKeyLE at hab hbc ⊢
  cases ha : a.bpm <;> cases hb : b.bpm <;> cases hc : c.bpm <;>
    rw [ha, hb] at hab <;> rw [hb, hc] at hbc <;> simp_all
  exact le_trans hab hbc

theorem insertSong_perm (x : Song) (l : List Song) :
    (insertSong x l).Perm (x :: l) := by
  induction l with
  | nil => exact List.Perm.refl _
  | cons y ys ih =>
    unfold insertSong
    split
    · exact List.Perm.refl _
    · exact ((ih.cons y).trans (List.Perm.swap x y ys)).symm.symm

theorem sortByBpm_perm (l : List Song) : (sortByBpm l).Perm l := by
  induction l with
  | nil => exact List.Perm.refl _
  | cons x xs ih =>
    unfold sortByBpm
    exact (insertSong_perm x (sortByBpm xs)).trans (ih.cons x)

theorem sortByBpm_head_min {l : List Song} {h : Song} {t : List Song}
    (hs : sortByBpm l = h :: t) : ∀ s ∈ l, bpmKeyLE h s = true := by
  induction l generalizing h t with
  | nil => simp [sortByBpm] at hs
  | cons x xs ih =>
    unfold sortByBpm at hs
    cases hxs : sortByBpm xs with
    | nil =>
      rw [hxs] at hs
      unfold insertSong at hs
      cases hs
      have : xs = [] := List.perm_nil.mp (hxs ▸ (sortByBpm_perm xs).symm)
      subst this
      intro s hsmem
      rcases List.mem_singleton.mp hsmem with rfl
      exact bpmKeyLE_refl s
    | cons h2 t2 =>
      rw [hxs] at hs
      unfold insertSong at hs
      have ihmin := ih hxs
      split at hs
      · rename_i hle
        cases hs
        intro s hsmem
        rcases List.mem_cons.mp hsmem with rfl | hsm
        · exact bpmKeyLE_refl s
        · exact bpmKeyLE_trans hle (ihmin s hsm)
      · rename_i hnle
        cases hs
        intro s hsmem
        rcases List.mem_cons.mp hsmem with rfl | hsm
        · exact bpmKeyLE_total (Bool.eq_false_iff.mpr hnle)
        · exact ihmin s hsm

theorem find_congr {p q : Song → Bool} (l : List Song)
    (h : ∀ s ∈ l, p s = q s) : l.find? p = l.find? q := by
  induction l with
  | nil => rfl
  | cons x xs ih =>
    have hx := h x (List.mem_cons_self x xs)
    cases hpx : p x with
    | true =>
      rw [List.find?_cons_of_pos _ hpx, List.find?_cons_of_pos _ (hx ▸ hpx)]
    | false =>
      rw [List.find?_cons_of_neg _ (by simp [hpx]),
        List.find?_cons_of_neg _ (by simp [← hx, hpx])]
      exact ih (fun s hs => h s (List.mem_cons_of_mem x hs))

/-- Stability consequence: the head of the stable BPM sort is the first
input record whose sort key is minimal (ties broken by original order). -/
theorem sortByBpm_head_first {l : List Song} {h : Song} {t : List Song}
    (hs : sortByBpm l = h :: t) :
    l.find? (fun s => l.all (fun u => bpmKeyLE s u)) = some h := by
  induction l generalizing h t with
  | nil => simp [sortByBpm] at hs
  | cons x xs ih =>
    unfold sortByBpm at hs
    cases hxs : sortByBpm xs with
    | nil =>
      rw [hxs] at hs
      unfold insertSong at hs
      cases hs
      have hnil : xs = [] := List.perm_nil.mp (hxs ▸ (sortByBpm_perm xs).symm)
      subst hnil
      apply List.find?_cons_of_pos
      simp [bpmKeyLE_refl]
    | cons h2 t2 =>
      rw [hxs] at hs
      have hmin2 : ∀ s ∈ xs, bpmKeyLE h2 s = true := sortByBpm_head_min hxs
      have ih2 : xs.find? (fun s => xs.all (fun u => bpmKeyLE s u)) = some h2 :=
        ih hxs
      have h2mem : h2 ∈ xs :=
        (sortByBpm_perm xs).subset (hxs ▸ List.mem_cons_self h2 t2)
      unfold insertSong at hs
      split at hs
      · rename_i hle
        cases hs
        apply List.find?_cons_of_pos
        rw [List.all_eq_true]
        intro u hu
        rcases List.mem_cons.mp hu with rfl | hum
        · exact bpmKeyLE_refl u
        · exact bpmKeyLE_trans hle (hmin2 u hum)
      · rename_i hnle
        have hnle' : bpmKeyLE x h2 = false := Bool.eq_false_iff.mpr hnle
        injection hs with hh ht
        subst hh
        rw [List.find?_cons_of_neg]
        · rw [find_congr xs (fun s hsm => ?_)]
          · exact ih2
          · show ((x :: xs).all (fun u => bpmKeyLE s u)) = xs.all (fun u => bpmKeyLE s u)
            rw [List.all_cons]
            cases hq : xs.all (fun u => bpmKeyLE s u) with
            | false => simp
            | true =>
              have hsh2 : bpmKeyLE s h2 = true := by
                rw [List.all_eq_true] at hq
                exact hq h2 h2mem
              have hsx : bpmKeyLE s x = true := by
                cases hsx : bpmKeyLE s x with
                | true => rfl
                | false =>
                  have hxs2 : bpmKeyLE x s = true := bpmKeyLE_total hsx
                  have : bpmKeyLE x h2 = true := bpmKeyLE_trans hxs2 hsh2
                  rw [this] at hnle'
                  cases hnle'
              simp [hsx]
        · intro hall
          rw [List.all_eq_true] at hall
          have : bpmKeyLE x h2 = true :=
            hall h2 (List.mem_cons_of_mem x h2mem)
          rw [this] at hnle'
          cases hnle'

/-! ## Helper lemmas: the greedy selection step -/

/-- Full characterisation of one greedy scan: the winner is scored, it
strictly beats every earlier candidate (so the first of equal maxima wins)
and is at least as good as every later one, and the returned pool is the
scan pool with exactly the winner removed, order preserved. -/
theorem pick_best_spec (f : Song → Option ℚ) :
    ∀ (xs : List Song) (x b : Song) (c : ℚ) (rest : List Song),
      pick_best f x xs = some (b, c, rest) →
      f b = some c ∧
      ∃ pre suf, x :: xs = pre ++ b :: suf ∧ rest = pre ++ suf ∧
        (∀ a ∈ pre, ∃ ca, f a = some ca ∧ ca < c) ∧
        (∀ a ∈ suf, ∃ ca, f a = some ca ∧ ca ≤ c) := by
  intro xs
  induction xs with
  | nil =>
    intro x b c rest h
    unfold pick_best at h
    split at h
    · simp at h
    · rename_i cx hfx
      cases h
      exact ⟨hfx, [], [], rfl, rfl, by simp, by simp⟩
  | cons y ys ih =>
    intro x b c rest h
    unfold pick_best at h
    split at h
    · simp at h
    · rename_i cx hfx
      split at h
      · simp at h
      · rename_i b2 cb2 rest2 hpb2
        obtain ⟨hfb2, pre2, suf2, hsplit2, hrest2, hpre2, hsuf2⟩ :=
          ih y b2 cb2 rest2 hpb2
        split at h
        · rename_i hgt
          injection h with h'
          rw [Prod.mk.injEq, Prod.mk.injEq] at h'
          obtain ⟨e1, e2, e3⟩ := h'
          subst e1
          subst e2
          subst e3
          refine ⟨hfb2, x :: pre2, suf2, by simp [hsplit2], by simp [hrest2], ?_, hsuf2⟩
          intro a ha
          rcases List.mem_cons.mp ha with rfl | ham
          · exact ⟨cx, hfx, hgt⟩
          · exact hpre2 a ham
        · rename_i hngt
          injection h with h'
          rw [Prod.mk.injEq, Prod.mk.injEq] at h'
          obtain ⟨e1, e2, e3⟩ := h'
          subst e1
          subst e2
          subst e3
          have hle2 : cb2 ≤ cx := le_of_not_lt hngt
          refine ⟨hfx, [], y :: ys, rfl, rfl, by simp, ?_⟩
          intro a ha
          have : a ∈ pre2 ++ b2 :: suf2 := hsplit2 ▸ ha
          rcases List.mem_append.mp this with hap | has
          · obtain ⟨ca, hca, hlt⟩ := hpre2 a hap
            exact ⟨ca, hca, le_of_lt (lt_of_lt_of_le hlt hle2)⟩
          · rcases List.mem_cons.mp has with rfl | ham
            · exact ⟨cb2, hfb2, hle2⟩
            · obtain ⟨ca, hca, hle⟩ := hsuf2 a ham
              exact ⟨ca, hca, le_trans hle hle2⟩

theorem pick_best_length {f : Song → Option ℚ} {xs : List Song} {x b : Song}
    {c : ℚ} {rest : List Song} (h : pick_best f x xs = some (b, c, rest)) :
    rest.length = xs.length := by
  obtain ⟨-, pre, suf, hsplit, hrest, -, -⟩ := pick_best_spec f xs x b c rest h
  have hl1 : (x :: xs).length = pre.length + suf.length + 1 := by
    rw [hsplit]; simp [List.length_append]; omega
  rw [hrest]
  simp only [List.length_cons] at hl1
  simp [List.length_append]
  omega

theorem pick_best_perm {f : Song → Option ℚ} {xs : List Song} {x b : Song}
    {c : ℚ} {rest : List Song} (h : pick_best f x xs = some (b, c, rest)) :
    (b :: rest).Perm (x :: xs) := by
  obtain ⟨-, pre, suf, hsplit, hrest, -, -⟩ := pick_best_spec f xs x b c rest h
  rw [hsplit, hrest]
  exact List.perm_middle.symm

theorem pick_best_isSome (f : Song → Option ℚ) :
    ∀ (xs : List Song) (x : Song), (f x).isSome →
      (∀ s ∈ xs, (f s).isSome) → (pick_best f x xs).isSome := by
  intro xs
  induction xs with
  | nil =>
    intro x hx _
    obtain ⟨cx, hcx⟩ := Option.isSome_iff_exists.mp hx
    simp [pick_best, hcx]
  | cons y ys ih =>
    intro x hx hall
    obtain ⟨cx, hcx⟩ := Option.isSome_iff_exists.mp hx
    have hy : (f y).isSome := hall y (List.mem_cons_self y ys)
    have hys : ∀ s ∈ ys, (f s).isSome :=
      fun s hs => hall s (List.mem_cons_of_mem y hs)
    obtain ⟨r, hr⟩ := Option.isSome_iff_exists.mp (ih y hy hys)
    obtain ⟨b2, cb2, rest2⟩ := r
    unfold pick_best
    simp only [hcx, hr]
    split <;> rfl

/-! ## Helper lemmas: the greedy loop -/

theorem greedy_go_fuel {sc : Song → Song → Option ℚ} :
    ∀ (fuel1 fuel2 : List Song) (curr : Song) (rem : List Song),
      rem.length ≤ fuel1.length → rem.length ≤ fuel2.length →
      greedy_go sc fuel1 curr rem = greedy_go sc fuel2 curr rem := by
  intro fuel1
  induction fuel1 with
  | nil =>
    intro fuel2 curr rem h1 h2
    cases rem with
    | nil => cases fuel2 <;> rfl
    | cons x xs => simp at h1
  | cons f1 fs1 ih =>
    intro fuel2 curr rem h1 h2
    cases rem with
    | nil => cases fuel2 <;> rfl
    | cons x xs =>
      cases fuel2 with
      | nil => simp at h2
      | cons f2 fs2 =>
        show (match pick_best (sc curr) x xs with
          | none => none
          | some (b, _, rest) =>
            match greedy_go sc fs1 b rest with
            | none => none
            | some tail => some (b :: tail)) =
          (match pick_best (sc curr) x xs with
          | none => none
          | some (b, _, rest) =>
            match greedy_go sc fs2 b rest with
            | none => none
            | some tail => some (b :: tail))
        cases hpb : pick_best (sc curr) x xs with
        | none => rfl
        | some r =>
          obtain ⟨b, c, rest⟩ := r
          have hlen : rest.length = xs.length := pick_best_length hpb
          simp only [List.length_cons] at h1 h2
          show (match greedy_go sc fs1 b rest with
            | none => none
            | some tail => some (b :: tail)) =
            (match greedy_go sc fs2 b rest with
            | none => none
            | some tail => some (b :: tail))
          rw [ih fs2 b rest (by omega) (by omega)]

theorem greedy_path_cons {sc : Song → Song → Option ℚ} {curr x : Song}
    {xs : List Song} {b : Song} {c : ℚ} {rest : List Song}
    (h : pick_best (sc curr) x xs = some (b, c, rest)) :
    greedy_path sc curr (x :: xs) =
      (greedy_path sc b rest).map (fun tail => b :: tail) := by
  have hlen : rest.length = xs.length := pick_best_length h
  unfold greedy_path
  show (match pick_best (sc curr) x xs with
    | none => none
    | some (b, _, rest) =>
      match greedy_go sc xs b rest with
      | none => none
      | some tail => some (b :: tail)) =
    (greedy_go sc rest b rest).map (fun tail => b :: tail)
  rw [h]
  show (match greedy_go sc xs b rest with
    | none => none
    | some tail => some (b :: tail)) =
    (greedy_go sc rest b rest).map (fun tail => b :: tail)
  rw [greedy_go_fuel xs rest b rest (by omega) (by omega)]
  cases greedy_go sc rest b rest <;> rfl

/-- Under the §4.4 precondition the greedy loop never raises and returns a
permutation of its pool. -/
theorem greedy_perm {sc : Song → Song → Option ℚ} (P : Song → Prop)
    (H : ∀ a b, P a → P b → (sc a b).isSome) :
    ∀ (n : Nat) (rem : List Song), rem.length ≤ n → (∀ s ∈ rem, P s) →
      ∀ curr, P curr →
      ∃ tail, greedy_path sc curr rem = some tail ∧ tail.Perm rem := by
  intro n
  induction n with
  | zero =>
    intro rem hlen _ curr _
    have : rem = [] := List.length_eq_zero.mp (Nat.le_zero.mp hlen)
    subst this
    exact ⟨[], rfl, List.Perm.refl _⟩
  | succ n ih =>
    intro rem hlen hall curr hcurr
    cases rem with
    | nil => exact ⟨[], rfl, List.Perm.refl _⟩
    | cons x xs =>
      have hx : (sc curr x).isSome :=
        H curr x hcurr (hall x (List.mem_cons_self x xs))
      have hxs : ∀ s ∈ xs, (sc curr s).isSome :=
        fun s hs => H curr s hcurr (hall s (List.mem_cons_of_mem x hs))
      obtain ⟨r, hr⟩ := Option.isSome_iff_exists.mp
        (pick_best_isSome (sc curr) xs x hx hxs)
      obtain ⟨b, c, rest⟩ := r
      have hperm : (b :: rest).Perm (x :: xs) := pick_best_perm hr
      have hbmem : b ∈ x :: xs := hperm.subset (List.mem_cons_self b rest)
      have hrestmem : ∀ s ∈ rest, s ∈ x :: xs :=
        fun s hs => hperm.subset (List.mem_cons_of_mem b hs)
      have hlen2 : rest.length ≤ n := by
        have := pick_best_length hr
        simp only [List.length_cons] at hlen
        omega
      obtain ⟨tail, htail, htperm⟩ :=
        ih rest hlen2 (fun s hs => hall s (hrestmem s hs)) b (hall b hbmem)
      refine ⟨b :: tail, ?_, ?_⟩
      · rw [greedy_path_cons hr, htail]
        rfl
      · exact (htperm.cons b).trans hperm

/-! ## Helper lemmas: start selection and the builders -/

theorem find_start_spec :
    ∀ (l : List Song) (st : Song) (rem : List Song),
      find_start l = some (st, rem) →
      st.hasKey = true ∧
      ∃ pre suf, l = pre ++ st :: suf ∧ rem = pre ++ suf ∧
        (∀ s ∈ pre, s.hasKey = false) := by
  intro l
  induction l with
  | nil => intro st rem h; simp [find_start] at h
  | cons s rest ih =>
    intro st rem h
    unfold find_start at h
    split at h
    · rename_i hk
      cases h
      exact ⟨hk, [], rest, rfl, rfl, by simp⟩
    · rename_i hnk
      split at h
      · simp at h
      · rename_i st2 rem2 hfs
        injection h with h'
        rw [Prod.mk.injEq] at h'
        obtain ⟨e1, e2⟩ := h'
        subst e1
        subst e2
        obtain ⟨hk2, pre2, suf2, hsplit2, hrem2, hpre2⟩ := ih st2 rem2 hfs
        refine ⟨hk2, s :: pre2, suf2, by simp [hsplit2], by simp [hrem2], ?_⟩
        intro u hu
        rcases List.mem_cons.mp hu with rfl | hum
        · exact Bool.eq_false_iff.mpr hnk
        · exact hpre2 u hum

theorem find_start_none {l : List Song} (h : ∀ s ∈ l, s.hasKey = false) :
    find_start l = none := by
  induction l with
  | nil => rfl
  | cons s rest ih =>
    unfold find_start
    rw [if_neg, ih (fun u hu => h u (List.mem_cons_of_mem s hu))]
    rw [h s (List.mem_cons_self s rest)]
    simp

theorem build_bpm_perm {songs : List Song}
    (h : ∀ s ∈ songs, goodSong s = true) :
    ∃ l, build_bpm_first_path songs = some l ∧ l.Perm songs ∧
      ∀ h0 t0, sortByBpm songs = h0 :: t0 → l.head? = some h0 := by
  have hsort : ∀ s ∈ sortByBpm songs, goodSong s = true :=
    fun s hs => h s ((sortByBpm_perm songs).subset hs)
  unfold build_bpm_first_path
  cases hss : sortByBpm songs with
  | nil =>
    have : songs = [] := List.perm_nil.mp (hss ▸ sortByBpm_perm songs).symm
    subst this
    refine ⟨[], rfl, List.Perm.refl _, ?_⟩
    intro h0 t0 heq
    exact absurd heq (by simp)
  | cons s0 rest =>
    have hs0 : goodSong s0 = true := hsort s0 (hss ▸ List.mem_cons_self s0 rest)
    have hrest : ∀ s ∈ rest, goodSong s = true :=
      fun s hs => hsort s (hss ▸ List.mem_cons_of_mem s0 hs)
    obtain ⟨tail, htail, hperm⟩ :=
      greedy_perm (fun s => goodSong s = true)
        (fun a b ha hb => sc_bpm_isSome ha hb) rest.length rest
        le_rfl hrest s0 hs0
    show ∃ l, (match greedy_path sc_bpm s0 rest with
      | none => none
      | some tail => some (s0 :: tail)) = some l ∧ l.Perm songs ∧
      ∀ h0 t0, s0 :: rest = h0 :: t0 → l.head? = some h0
    rw [htail]
    refine ⟨s0 :: tail, rfl, (hperm.cons s0).trans (hss ▸ sortByBpm_perm songs), ?_⟩
    intro h0 t0 heq
    injection heq with e1 e2
    simp [e1]

theorem build_harm_perm {songs : List Song}
    (h : ∀ s ∈ songs, goodSong s = true) :
    ∃ l, build_harmonic_path songs = some l ∧ l.Perm songs := by
  have hsort : ∀ s ∈ sortByBpm songs, goodSong s = true :=
    fun s hs => h s ((sortByBpm_perm songs).subset hs)
  unfold build_harmonic_path
  cases hss : sortByBpm songs with
  | nil =>
    have : songs = [] := List.perm_nil.mp (hss ▸ sortByBpm_perm songs).symm
    subst this
    exact ⟨[], rfl, List.Perm.refl _⟩
  | cons s0 rest =>
    have hs0 : goodSong s0 = true := hsort s0 (hss ▸ List.mem_cons_self s0 rest)
    have hrest : ∀ s ∈ rest, goodSong s = true :=
      fun s hs => hsort s (hss ▸ List.mem_cons_of_mem s0 hs)
    show ∃ l, (match find_start (s0 :: rest) with
      | none => some (s0 :: rest)
      | some (st, rem) =>
        match greedy_path sc_harm st rem with
        | none => none
        | some tail => some (st :: tail)) = some l ∧ l.Perm songs
    rw [show find_start (s0 :: rest) = some (s0, rest) by
      unfold find_start
      rw [if_pos (goodSong_hasKey hs0)]]
    show ∃ l, (match greedy_path sc_harm s0 rest with
      | none => none
      | some tail => some (s0 :: tail)) = some l ∧ l.Perm songs
    obtain ⟨tail, htail, hperm⟩ :=
      greedy_perm (fun s => goodSong s = true)
        (fun a b ha hb => sc_harm_isSome ha hb) rest.length rest
        le_rfl hrest s0 hs0
    rw [htail]
    refine ⟨s0 :: tail, rfl, ?_⟩
    exact (hperm.cons s0).trans (hss ▸ sortByBpm_perm songs)

/-! ## Claims -/

/-- C2: the spec demands that every malformed key string (no trailing
letter, non-integer or non-positive digits, or position outside [1,12])
fail decoding with a distinguishable `InvalidKeyFormat`, and that
classification surface that failure.  The code does not: `parse_camelot`
performs no validation, so the out-of-range key `"13A"` decodes to
`(13, 'A')` and `classify_mix_type "13A" "2A"` silently returns a
category; likewise the non-positive `"0A"` decodes to `(0, 'A')`. -/
theorem C2_no_invalid_key_rejection :
    decode_spec "13A" = none ∧
    parse_camelot "13A" = some (13, 'A') ∧
    classify_mix_type (some "13A") (some "2A") = some "+1 mix" ∧
    decode_spec "0A" = none ∧
    parse_camelot "0A" = some (0, 'A') ∧
    classify_mix_type (some "0A") (some "1A") = some "+1 mix" := by
  refine ⟨by decide, by decide, by decide, by decide, by decide, by decide⟩

/-- C5: the BPM-first score is `bpmScore·0.40 + table[classify]·0.60` with
`bpmScore = max(0, 10 − |bpmB − bpmA|)` (0 when either BPM is absent), and
the score table has the stated ten values. -/
theorem C5_bpm_first_score_formula :
    (∀ (a b : Song) (mt : String), classify_mix_type a.key b.key = some mt →
      transition_score_bpm (2/5) a b =
        some (spec_bpmScore a.bpm b.bpm * (40/100) + MIX_SCORES mt * (60/100), mt)) ∧
    MIX_SCORES "perfect mix" = 5 ∧ MIX_SCORES "+1 mix" = 4 ∧
    MIX_SCORES "-1 mix" = 4 ∧ MIX_SCORES "energy boost" = 3 ∧
    MIX_SCORES "scale change" = 3 ∧ MIX_SCORES "diagonal mix" = 2 ∧
    MIX_SCORES "mood shifter" = 2 ∧ MIX_SCORES "jaws mix" = 1 ∧
    MIX_SCORES "non-harmonic" = 0 ∧ MIX_SCORES "unknown" = 0 := by
  refine ⟨?_, by decide, by decide, by decide, by decide, by decide,
    by decide, by decide, by decide, by decide, by decide⟩
  intro a b mt h
  simp only [transition_score_bpm, h, spec_bpmScore]
  cases a.bpm <;> cases b.bpm <;> norm_num

theorem C5_witness :
    transition_score_bpm (2/5) w5A w5B =
      some (spec_bpmScore w5A.bpm w5B.bpm * (40/100) +
        MIX_SCORES "+1 mix" * (60/100), "+1 mix") :=
  C5_bpm_first_score_formula.1 w5A w5B "+1 mix" (by decide)

/-- C6: the harmonic-first score is `table[classify]·10` minus the penalty
`|bpmB − bpmA|·0.15` (penalty 0 when either BPM is absent), and the mix
type is returned alongside the score. -/
theorem C6_harmonic_first_score_formula :
    ∀ (a b : Song) (mt : String), classify_mix_type a.key b.key = some mt →
      transition_score_harmonic (3/20) a b =
        some (MIX_SCORES mt * 10 - spec_bpmPenalty a.bpm b.bpm, mt) := by
  intro a b mt h
  simp only [transition_score_harmonic, h, spec_bpmPenalty]
  cases a.bpm <;> cases b.bpm <;> norm_num

theorem C6_witness :
    transition_score_harmonic (3/20) w6A w6B =
      some (MIX_SCORES "perfect mix" * 10 -
        spec_bpmPenalty w6A.bpm w6B.bpm, "perfect mix") :=
  C6_harmonic_first_score_formula w6A w6B "perfect mix" (by decide)

/-- C7 (counterexample): with the harmonic category fixed to perfect mix,
the BPM differences 11 < 12 both yield the BPM-first score 3, so the score
is not strictly decreasing in the BPM difference. -/
theorem C7_strict_decrease_counterexample :
    |(111 : ℚ) - 100| < |(112 : ℚ) - 100| ∧
    transition_score_bpm (2/5) cx7A cx7B1 = some (3, "perfect mix") ∧
    transition_score_bpm (2/5) cx7A cx7B2 = some (3, "perfect mix") := by
  have hc : classify_mix_type (some "8A") (some "8A") = some "perfect mix" := by
    decide
  have hm : MIX_SCORES "perfect mix" = 5 := by decide
  refine ⟨by norm_num, ?_, ?_⟩ <;>
    · simp only [transition_score_bpm, cx7A, cx7B1, cx7B2, hc, hm,
        Option.some.injEq, Prod.mk.injEq]
      norm_num

/-- C7 (amended): for present BPMs and a fixed harmonic category, the
BPM-first score is weakly decreasing in `|bpmB − bpmA|`, strictly so while
the smaller difference is below 10 (beyond 10 the BPM term is clamped to
0); the harmonic-first score is affine-decreasing in `|bpmB − bpmA|` with
slope −0.15. -/
theorem C7_amended_monotonicity :
    ∀ (s t1 t2 : Song) (x y1 y2 : ℚ) (mt : String),
      s.bpm = some x → t1.bpm = some y1 → t2.bpm = some y2 →
      t1.key = t2.key →
      classify_mix_type s.key t1.key = some mt →
      |y1 - x| < |y2 - x| →
      (∃ v1 v2,
        transition_score_bpm (2/5) s t1 = some (v1, mt) ∧
        transition_score_bpm (2/5) s t2 = some (v2, mt) ∧
        v2 ≤ v1 ∧ (|y1 - x| < 10 → v2 < v1)) ∧
      (∃ w1 w2,
        transition_score_harmonic (3/20) s t1 = some (w1, mt) ∧
        transition_score_harmonic (3/20) s t2 = some (w2, mt) ∧
        w1 = MIX_SCORES mt * 10 - |y1 - x| * (3/20) ∧
        w2 = MIX_SCORES mt * 10 - |y2 - x| * (3/20) ∧
        w1 - w2 = (3/20) * (|y2 - x| - |y1 - x|)) := by
  intro s t1 t2 x y1 y2 mt hx h1 h2 hk hc hlt
  have hc2 : classify_mix_type s.key t2.key = some mt := by rw [← hk]; exact hc
  constructor
  · refine ⟨max 0 (10 - |y1 - x|) * (2/5) + MIX_SCORES mt * (1 - 2/5),
      max 0 (10 - |y2 - x|) * (2/5) + MIX_SCORES mt * (1 - 2/5), ?_, ?_, ?_, ?_⟩
    · simp only [transition_score_bpm, hc, hx, h1]
    · simp only [transition_score_bpm, hc2, hx, h2]
    · have hmax : max 0 (10 - |y2 - x|) ≤ max 0 (10 - |y1 - x|) :=
        max_le_max le_rfl (by linarith)
      linarith
    · intro hd1
      have hm1 : max 0 (10 - |y1 - x|) = 10 - |y1 - x| :=
        max_eq_right (by linarith)
      rcases le_or_lt (10 - |y2 - x|) 0 with hd2 | hd2
      · have hm2 : max 0 (10 - |y2 - x|) = 0 := max_eq_left hd2
        rw [hm1, hm2]
        have : (0:ℚ) < 10 - |y1 - x| := by linarith
        nlinarith
      · have hm2 : max 0 (10 - |y2 - x|) = 10 - |y2 - x| :=
          max_eq_right (by linarith)
        rw [hm1, hm2]
        nlinarith
  · refine ⟨MIX_SCORES mt * 10 - |y1 - x| * (3/20),
      MIX_SCORES mt * 10 - |y2 - x| * (3/20), ?_, ?_, rfl, rfl, by ring⟩
    · simp only [transition_score_harmonic, hc, hx, h1]
    · simp only [transition_score_harmonic, hc2, hx, h2]

theorem C7_witness :
    (∃ v1 v2,
      transition_score_bpm (2/5) w7A w7B1 = some (v1, "perfect mix") ∧
      transition_score_bpm (2/5) w7A w7B2 = some (v2, "perfect mix") ∧
      v2 ≤ v1 ∧ (|(104 : ℚ) - 100| < 10 → v2 < v1)) ∧
    (∃ w1 w2,
      transition_score_harmonic (3/20) w7A w7B1 = some (w1, "perfect mix") ∧
      transition_score_harmonic (3/20) w7A w7B2 = some (w2, "perfect mix") ∧
      w1 = MIX_SCORES "perfect mix" * 10 - |(104 : ℚ) - 100| * (3/20) ∧
      w2 = MIX_SCORES "perfect mix" * 10 - |(106 : ℚ) - 100| * (3/20) ∧
      w1 - w2 = (3/20) * (|(106 : ℚ) - 100| - |(104 : ℚ) - 100|)) :=
  C7_amended_monotonicity w7A w7B1 w7B2 100 104 106 "perfect mix"
    rfl rfl rfl rfl (by decide) (by norm_num)

/-- C8: `camelot_increment` computes `((position − 1 + step) mod 12) + 1`
(also for negative step), is a bijection on [1,12] for every fixed step,
and `increment (increment p s) (−s) = p` on [1,12]. -/
theorem C8_increment_ring :
    (∀ num step : Int, camelot_increment num step = ((num - 1 + step) % 12) + 1) ∧
    (∀ s : Int, Set.BijOn (fun p => camelot_increment p s)
      (Set.Icc (1 : Int) 12) (Set.Icc (1 : Int) 12)) ∧
    (∀ p s : Int, 1 ≤ p → p ≤ 12 →
      camelot_increment (camelot_increment p s) (-s) = p) := by
  refine ⟨fun num step => rfl, fun s => ⟨?_, ?_, ?_⟩, fun p s h1 h2 => ?_⟩
  · intro p hp
    simp only [Set.mem_Icc] at hp ⊢
    unfold camelot_increment
    omega
  · intro a ha b hb heq
    simp only [Set.mem_Icc] at ha hb
    simp only [camelot_increment] at heq
    omega
  · intro y hy
    simp only [Set.mem_Icc] at hy
    refine ⟨camelot_increment y (-s), ?_, ?_⟩
    · simp only [Set.mem_Icc]
      unfold camelot_increment
      omega
    · simp only [camelot_increment]
      omega
  · unfold camelot_increment
    omega

theorem C8_witness :
    camelot_increment (camelot_increment 3 5) (-5) = 3 :=
  C8_increment_ring.2.2 3 5 (by decide) (by decide)

/-- C10: for every non-`None` key string `k`, even a non-decodable one
such as `"XX"` or `""`, `classify_mix_type k k = "perfect mix"`: the
string-identity check of `is_perfect_mix` precedes all decoding. -/
theorem C10_identity_precedes_decoding :
    (∀ k : String, classify_mix_type (some k) (some k) = some "perfect mix") ∧
    parse_camelot "XX" = none ∧ parse_camelot "" = none := by
  refine ⟨?_, by decide, by decide⟩
  intro k
  simp [classify_mix_type, is_perfect_mix]

/-- C1: on every pair of keys the spec can decode, `classify_mix_type`
agrees with the spec's priority chain `classify_spec` (ten categories, the
stated conditions, first match wins); an absent key yields `"unknown"`,
and the ten example equations of §8 hold. -/
theorem C1_classify_matches_spec :
    (∀ a b : String, (decode_spec a).isSome → (decode_spec b).isSome →
      classify_mix_type (some a) (some b) = classify_spec (some a) (some b)) ∧
    (∀ k : Option String, classify_mix_type none k = some "unknown" ∧
      classify_mix_type k none = some "unknown") ∧
    classify_mix_type (some "8A") (some "8A") = some "perfect mix" ∧
    classify_mix_type (some "8A") (some "9A") = some "+1 mix" ∧
    classify_mix_type (some "9A") (some "8A") = some "-1 mix" ∧
    classify_mix_type (some "8A") (some "10A") = some "energy boost" ∧
    classify_mix_type (some "8A") (some "8B") = some "scale change" ∧
    classify_mix_type (some "9A") (some "8B") = some "diagonal mix" ∧
    classify_mix_type (some "1B") (some "4A") = some "mood shifter" ∧
    classify_mix_type (some "1A") (some "8A") = some "jaws mix" ∧
    classify_mix_type (some "8A") (some "3B") = some "non-harmonic" ∧
    classify_mix_type none (some "8A") = some "unknown" := by
  refine ⟨?_, ?_, by decide, by decide, by decide, by decide, by decide,
    by decide, by decide, by decide, by decide, by decide⟩
  · intro a b h1 h2
    obtain ⟨⟨n1, l1⟩, e1⟩ := Option.isSome_iff_exists.mp h1
    obtain ⟨⟨n2, l2⟩, e2⟩ := Option.isSome_iff_exists.mp h2
    have p1 := decode_to_parse e1
    have p2 := decode_to_parse e2
    rw [classify_eq_chain p1 p2]
    simp only [classify_spec, e1, e2]
    by_cases hab : a = b
    · simp [hab]
    · by_cases hA : l1 = l2 <;> simp [hab, hA]
  · intro k
    cases k <;> exact ⟨rfl, rfl⟩

theorem C1_witness :
    classify_mix_type (some "8A") (some "9A") =
      classify_spec (some "8A") (some "9A") :=
  C1_classify_matches_spec.1 "8A" "9A" (by decide) (by decide)

/-- C3: on every input satisfying the §4.4 precondition (non-null BPM and
decodable key on every record), both builders succeed and return a
permutation of the input (same multiset, hence same length). -/
theorem C3_builders_permutation :
    ∀ songs : List Song, (∀ s ∈ songs, goodSong s = true) →
      (∃ l, build_bpm_first_path songs = some l ∧ l.Perm songs) ∧
      (∃ l, build_harmonic_path songs = some l ∧ l.Perm songs) := by
  intro songs h
  obtain ⟨l, h1, h2, -⟩ := build_bpm_perm h
  exact ⟨⟨l, h1, h2⟩, build_harm_perm h⟩

theorem C3_witness :
    (∃ l, build_bpm_first_path w1Songs = some l ∧ l.Perm w1Songs) ∧
    (∃ l, build_harmonic_path w1Songs = some l ∧ l.Perm w1Songs) :=
  C3_builders_permutation w1Songs (by decide)

/-- C4: on every non-empty precondition-satisfying input the BPM-first
builder's first output record is the first input record of minimal BPM
(ties broken by original order, via the stable sort); one greedy scan
(`pick_best`, shared by both builders) returns a candidate that strictly
beats every earlier candidate and weakly beats every later one — the
strictly greatest score, ties won by the first candidate in `remaining`'s
current order — and each loop iteration appends exactly that winner. -/
theorem C4_min_start_and_first_max_selection :
    (∀ songs : List Song, songs ≠ [] → (∀ s ∈ songs, goodSong s = true) →
      ∃ l, build_bpm_first_path songs = some l ∧
        l.head? = songs.find? (fun s => songs.all (fun t => bpmKeyLE s t))) ∧
    (∀ (f : Song → Option ℚ) (x b : Song) (xs rest : List Song) (c : ℚ),
      pick_best f x xs = some (b, c, rest) →
      f b = some c ∧
      ∃ pre suf, x :: xs = pre ++ b :: suf ∧ rest = pre ++ suf ∧
        (∀ a ∈ pre, ∃ ca, f a = some ca ∧ ca < c) ∧
        (∀ a ∈ suf, ∃ ca, f a = some ca ∧ ca ≤ c)) ∧
    (∀ (sc : Song → Song → Option ℚ) (curr x b : Song) (xs rest : List Song) (c : ℚ),
      pick_best (sc curr) x xs = some (b, c, rest) →
      greedy_path sc curr (x :: xs) =
        (greedy_path sc b rest).map (fun tail => b :: tail)) := by
  refine ⟨?_, ?_, ?_⟩
  · intro songs hne hgood
    obtain ⟨l, hbuild, hperm, hhead⟩ := build_bpm_perm hgood
    cases hss : sortByBpm songs with
    | nil =>
      exact absurd (List.perm_nil.mp (hss ▸ (sortByBpm_perm songs).symm)) hne
    | cons h0 t0 =>
      refine ⟨l, hbuild, ?_⟩
      rw [hhead h0 t0 hss, sortByBpm_head_first hss]
  · intro f x b xs rest c h
    exact pick_best_spec f xs x b c rest h
  · intro sc curr x b xs rest c h
    exact greedy_path_cons h

theorem C4_witness :
    (∃ l, build_bpm_first_path w4Songs = some l ∧
      l.head? = w4Songs.find? (fun s => w4Songs.all (fun t => bpmKeyLE s t))) ∧
    (Song.bpm w4y = some 2 ∧
      ∃ pre suf, w4x :: [w4y] = pre ++ w4y :: suf ∧ [w4x] = pre ++ suf ∧
        (∀ a ∈ pre, ∃ ca, Song.bpm a = some ca ∧ ca < 2) ∧
        (∀ a ∈ suf, ∃ ca, Song.bpm a = some ca ∧ ca ≤ 2)) ∧
    greedy_path (fun _ s => s.bpm) w4x [w4y] =
      (greedy_path (fun _ s => s.bpm) w4y []).map (fun tail => w4y :: tail) :=
  ⟨C4_min_start_and_first_max_selection.1 w4Songs (by decide) (by decide),
   C4_min_start_and_first_max_selection.2.1 Song.bpm w4x w4y [w4y] [w4x] 2 (by decide),
   C4_min_start_and_first_max_selection.2.2 (fun _ s => s.bpm) w4x w4y w4y [] []
     2 (by decide)⟩

/-- C9: the harmonic-first builder starts its path at the first BPM-sorted
record with a (truthy) key — `find_start` returns the first keyed record,
all records before it being unkeyed, and whenever the build returns a path
its head is that record; when no record has a key the builder does not
fail but returns the BPM-sorted sequence unchanged. -/
theorem C9_harmonic_start_and_fallback :
    (∀ songs : List Song, (∀ s ∈ songs, s.hasKey = false) →
      build_harmonic_path songs = some (sortByBpm songs)) ∧
    (∀ (l : List Song) (st : Song) (rem : List Song),
      find_start l = some (st, rem) →
      st.hasKey = true ∧
      ∃ pre suf, l = pre ++ st :: suf ∧ rem = pre ++ suf ∧
        (∀ s ∈ pre, s.hasKey = false)) ∧
    (∀ (songs l : List Song) (st : Song) (rem : List Song),
      build_harmonic_path songs = some l →
      find_start (sortByBpm songs) = some (st, rem) →
      l.head? = some st) := by
  refine ⟨?_, find_start_spec, ?_⟩
  · intro songs hnk
    unfold build_harmonic_path
    cases hss : sortByBpm songs with
    | nil => rfl
    | cons s0 rest =>
      show (match find_start (s0 :: rest) with
        | none => some (s0 :: rest)
        | some (st, rem) =>
          match greedy_path sc_harm st rem with
          | none => none
          | some tail => some (st :: tail)) = some (s0 :: rest)
      rw [find_start_none (fun s hs => hnk s ((sortByBpm_perm songs).subset
        (show s ∈ sortByBpm songs by rw [hss]; exact hs)))]
  · intro songs l st rem hb hf
    unfold build_harmonic_path at hb
    cases hss : sortByBpm songs with
    | nil =>
      rw [hss] at hf
      simp [find_start] at hf
    | cons s0 rest =>
      rw [hss] at hb hf
      have hb2 : (match find_start (s0 :: rest) with
        | none => some (s0 :: rest)
        | some (st2, rem2) =>
          match greedy_path sc_harm st2 rem2 with
          | none => none
          | some tail => some (st2 :: tail)) = some l := hb
      rw [hf] at hb2
      have hb3 : (match greedy_path sc_harm st rem with
        | none => none
        | some tail => some (st :: tail)) = some l := hb2
      split at hb3
      · simp at hb3
      · rename_i tail hg
        injection hb3 with e1
        rw [← e1]
        rfl

theorem C9_witness :
    build_harmonic_path w9Songs = some (sortByBpm w9Songs) :=
  C9_harmonic_start_and_fallback.1 w9Songs (by decide)

theorem C10_witness :
    classify_mix_type (some "XX") (some "XX") = some "perfect mix" :=
  C10_identity_precedes_decoding.1 "XX"
